import Mathlib

/-!
Verification of the example-acquisition and feature-construction pipeline of
`run_classifier.py` (a BERT finetuning runner): the sequence-pair truncator,
the n-gram-chunk permutation augmentor, the feature assembler, the parallel
order-preserving converter, and the lazily cached train/dev split.

Python lists become Lean `List`s, Python `int` becomes `Int` (or `Nat` where
the quantity is a count), `None`/exceptions become `Option`, and the two
`while` loops of the source are modelled fuel-indexed with fuel equal to the
exact number of iterations the Python loop performs, so that `none` marks
precisely the runs on which the Python code raises or diverges.
-/

namespace RunClassifier

/-! ## Sequence pair truncator (`_truncate_seq_pair`, lines 466-480)

    ```
    while True:
        total_length = len(tokens_a) + len(tokens_b)
        if total_length <= max_length:
            break
        if len(tokens_a) > len(tokens_b):
            tokens_a.pop()
        else:
            tokens_b.pop()
    ```
    Each iteration that does not break removes exactly one token, so running
    the loop with fuel `len(tokens_a) + len(tokens_b)` reproduces the Python
    loop exactly: the fuel can run out only when both lists are already empty
    and the budget is negative, which is exactly the run on which Python
    raises `IndexError` (`pop` from an empty `tokens_b`); both failure modes
    are `none`. -/
def truncateLoop (fuel : Nat) (a b : List α) (maxLength : Int) :
    Option (List α × List α) :=
  if ((a.length : Int) + (b.length : Int)) ≤ maxLength then some (a, b)
  else
    match fuel with
    | 0 => none
    | fuel + 1 =>
      if a.length > b.length then
        truncateLoop fuel a.dropLast b maxLength
      else
        match b with
        | [] => none
        | _ :: _ => truncateLoop fuel a b.dropLast maxLength

/-- Model of `_truncate_seq_pair(tokens_a, tokens_b, max_length)`; the result is the
    final state of the two (in Python, in-place mutated) lists. -/
def _truncate_seq_pair (a b : List α) (maxLength : Int) :
    Option (List α × List α) :=
  truncateLoop (a.length + b.length) a b maxLength

theorem truncateLoop_of_le {a b : List α} {maxLength : Int} (fuel : Nat)
    (h : ((a.length : Int) + (b.length : Int)) ≤ maxLength) :
    truncateLoop fuel a b maxLength = some (a, b) := by
  cases fuel <;> rw [truncateLoop.eq_def] <;> simp [h]

theorem truncateLoop_zero {a b : List α} {maxLength : Int}
    (h : ¬ ((a.length : Int) + (b.length : Int)) ≤ maxLength) :
    truncateLoop 0 a b maxLength = none := by
  rw [truncateLoop.eq_def]
  simp [h]

theorem truncateLoop_succ_pop_a {a b : List α} {maxLength : Int} (fuel : Nat)
    (h : ¬ ((a.length : Int) + (b.length : Int)) ≤ maxLength)
    (hgt : a.length > b.length) :
    truncateLoop (fuel + 1) a b maxLength =
      truncateLoop fuel a.dropLast b maxLength := by
  rw [truncateLoop.eq_def, if_neg h]
  exact if_pos hgt

theorem truncateLoop_succ_pop_b {a : List α} {x : α} {xs : List α}
    {maxLength : Int} (fuel : Nat)
    (h : ¬ ((a.length : Int) + ((x :: xs).length : Int)) ≤ maxLength)
    (hgt : ¬ a.length > (x :: xs).length) :
    truncateLoop (fuel + 1) a (x :: xs) maxLength =
      truncateLoop fuel a (x :: xs).dropLast maxLength := by
  rw [truncateLoop.eq_def, if_neg h]
  exact if_neg hgt

/-- Both lists empty, negative budget: Python pops from the empty `tokens_b`
    and raises `IndexError`. -/
theorem truncateLoop_succ_nil {maxLength : Int} (fuel : Nat)
    (h : ¬ ((([] : List α).length : Int) + (([] : List α).length : Int)) ≤
      maxLength) :
    truncateLoop (fuel + 1) ([] : List α) ([] : List α) maxLength = none := by
  rw [truncateLoop.eq_def, if_neg h]
  rfl

/-- When `truncateLoop` answers, the answer satisfies the loop's exit
    condition: the total remaining length is within the budget. -/
theorem truncateLoop_le {fuel : Nat} {a b r₁ r₂ : List α} {maxLength : Int}
    (h : truncateLoop fuel a b maxLength = some (r₁, r₂)) :
    ((r₁.length : Int) + (r₂.length : Int)) ≤ maxLength := by
  induction fuel generalizing a b with
  | zero =>
    by_cases hle : ((a.length : Int) + (b.length : Int)) ≤ maxLength
    · rw [truncateLoop_of_le 0 hle] at h
      cases h; exact hle
    · rw [truncateLoop_zero hle] at h
      cases h
  | succ fuel ih =>
    by_cases hle : ((a.length : Int) + (b.length : Int)) ≤ maxLength
    · rw [truncateLoop_of_le (fuel + 1) hle] at h
      cases h; exact hle
    · by_cases hgt : a.length > b.length
      · rw [truncateLoop_succ_pop_a fuel hle hgt] at h
        exact ih h
      · cases b with
        | nil =>
          have ha : a = [] := by
            have h0 : a.length = 0 := by simpa using hgt
            exact List.eq_nil_of_length_eq_zero h0
          subst ha
          rw [truncateLoop_succ_nil fuel hle] at h
          exact Option.noConfusion h
        | cons x xs =>
          rw [truncateLoop_succ_pop_b fuel hle hgt] at h
          exact ih h

/-- With a non-negative budget, fuel `len(a) + len(b)` is enough: the loop
    answers (Python neither diverges nor raises). -/
theorem truncateLoop_isSome {maxLength : Int} (hM : 0 ≤ maxLength) :
    ∀ (fuel : Nat) (a b : List α), a.length + b.length ≤ fuel →
      (truncateLoop fuel a b maxLength).isSome := by
  intro fuel
  induction fuel with
  | zero =>
    intro a b hab
    have ha : a.length = 0 := by omega
    have hb : b.length = 0 := by omega
    have hle : ((a.length : Int) + (b.length : Int)) ≤ maxLength := by
      rw [ha, hb]; simpa using hM
    rw [truncateLoop_of_le 0 hle]; rfl
  | succ fuel ih =>
    intro a b hab
    by_cases hle : ((a.length : Int) + (b.length : Int)) ≤ maxLength
    · rw [truncateLoop_of_le (fuel + 1) hle]; rfl
    · by_cases hgt : a.length > b.length
      · rw [truncateLoop_succ_pop_a fuel hle hgt]
        have hne : a ≠ [] := by
          intro h; subst h; simp at hgt
        have hlen : a.dropLast.length + b.length ≤ fuel := by
          rw [List.length_dropLast]
          have := List.length_pos.mpr hne
          omega
        exact ih a.dropLast b hlen
      · cases b with
        | nil =>
          exfalso
          have h0 : a.length = 0 := by simpa using hgt
          simp only [List.length_nil] at hle
          omega
        | cons x xs =>
          rw [truncateLoop_succ_pop_b fuel hle hgt]
          have hlen : a.length + (x :: xs).dropLast.length ≤ fuel := by
            rw [List.length_dropLast]
            simp at hab ⊢
            omega
          exact ih a (x :: xs).dropLast hlen

/-- Above the exact iteration count, extra fuel never changes the answer. -/
theorem truncateLoop_fuel_eq {maxLength : Int} :
    ∀ (fuel : Nat) (a b : List α), a.length + b.length ≤ fuel →
      truncateLoop fuel a b maxLength = _truncate_seq_pair a b maxLength := by
  intro fuel
  induction fuel with
  | zero =>
    intro a b hab
    have ha : a.length = 0 := by omega
    have hb : b.length = 0 := by omega
    rw [_truncate_seq_pair, ha, hb]
  | succ fuel ih =>
    intro a b hab
    by_cases hle : ((a.length : Int) + (b.length : Int)) ≤ maxLength
    · rw [truncateLoop_of_le (fuel + 1) hle, _truncate_seq_pair,
        truncateLoop_of_le _ hle]
    · rcases hn : a.length + b.length with _ | n
      · -- both lists already empty, negative budget: both sides fail
        have ha : a = [] := List.eq_nil_of_length_eq_zero (by omega)
        have hb : b = [] := List.eq_nil_of_length_eq_zero (by omega)
        subst ha; subst hb
        rw [truncateLoop_succ_nil fuel hle, _truncate_seq_pair]
        rw [show ([] : List α).length + ([] : List α).length = 0 from rfl]
        rw [truncateLoop_zero hle]
      · by_cases hgt : a.length > b.length
        · have hne : a ≠ [] := by
            intro hh; subst hh; simp at hgt
          have hd : a.dropLast.length + b.length = n := by
            rw [List.length_dropLast]
            have := List.length_pos.mpr hne
            omega
          rw [_truncate_seq_pair, hn, truncateLoop_succ_pop_a fuel hle hgt,
            truncateLoop_succ_pop_a n hle hgt,
            ih a.dropLast b (by omega), _truncate_seq_pair, hd]
        · cases b with
          | nil =>
            exfalso
            have h0 : a.length = 0 := by simpa using hgt
            rw [h0] at hn
            simp at hn
          | cons x xs =>
            have hd : a.length + (x :: xs).dropLast.length = n := by
              rw [List.length_dropLast]
              simp at hn ⊢
              omega
            rw [_truncate_seq_pair, hn, truncateLoop_succ_pop_b fuel hle hgt,
              truncateLoop_succ_pop_b n hle hgt,
              ih a (x :: xs).dropLast (by omega), _truncate_seq_pair, hd]


/-- C6: running the truncator on `A = [1,2,3,4,5]`, `B = [1,2]` with budget 4
    terminates with `len(A) + len(B) = 4`, every removal having come from `A`
    (the returned `B` is the input `B`, untouched), yielding `A = [1,2]`,
    `B = [1,2]`. -/
theorem C6_truncate_example :
    _truncate_seq_pair [1, 2, 3, 4, 5] [1, 2] (4 : Int) =
      some ([1, 2], [1, 2]) ∧
    (([1, 2] : List Nat).length + ([1, 2] : List Nat).length = 4) ∧
    (([1, 2] : List Nat) = [1, 2]) := by
  decide

/-- C7: with a non-negative budget the truncator terminates in at most
    `len(A) + len(B)` iterations — fuel `len(A) + len(B)` already yields the
    answer, any larger fuel yields the same answer, and the answer exists. -/
theorem C7_truncate_terminates (a b : List Nat) (maxLength : Int)
    (hM : 0 ≤ maxLength) :
    (∀ fuel, a.length + b.length ≤ fuel →
      truncateLoop fuel a b maxLength = _truncate_seq_pair a b maxLength) ∧
    (_truncate_seq_pair a b maxLength).isSome := by
  refine ⟨fun fuel hf => truncateLoop_fuel_eq fuel a b hf, ?_⟩
  exact truncateLoop_isSome hM (a.length + b.length) a b le_rfl

theorem C7_truncate_terminates_witness :
    (0 : Int) ≤ 2 ∧
    ((∀ fuel, ([10, 20, 30] : List Nat).length + ([7] : List Nat).length ≤ fuel →
      truncateLoop fuel [10, 20, 30] [7] (2 : Int) =
        _truncate_seq_pair [10, 20, 30] [7] (2 : Int)) ∧
     (_truncate_seq_pair ([10, 20, 30] : List Nat) [7] (2 : Int)).isSome) :=
  ⟨by decide, C7_truncate_terminates [10, 20, 30] [7] 2 (by decide)⟩

/-- C2 is false as stated: with `A = [0]`, `B = [1]` and budget 1 the lengths
    are equal (a tie) and the code pops from `B` (`len(tokens_a) >
    len(tokens_b)` is false), yielding `([0], [])` — not the `([], [1])` that
    the claim's remove-from-A-on-ties policy produces. -/
theorem C2_counterexample :
    _truncate_seq_pair [(0 : Nat)] [1] (1 : Int) = some ([0], []) ∧
    some (([0] : List Nat), ([] : List Nat)) ≠
      some (([] : List Nat), ([1] : List Nat)) := by
  decide

/-- C2 (amended): while `len(A) + len(B) > L'` the truncator removes the last
    token of whichever of A, B is strictly longer; ties remove from B. Stated
    as the one-iteration unfolding of the loop under each comparison. -/
theorem C2_truncation_policy (a b : List Nat) (maxLength : Int)
    (h : maxLength < (a.length : Int) + (b.length : Int)) :
    (b.length < a.length →
      _truncate_seq_pair a b maxLength =
        _truncate_seq_pair a.dropLast b maxLength) ∧
    (a.length ≤ b.length →
      _truncate_seq_pair a b maxLength =
        _truncate_seq_pair a b.dropLast maxLength) := by
  have hle : ¬ ((a.length : Int) + (b.length : Int)) ≤ maxLength :=
    not_le.mpr h
  constructor
  · intro hgt
    have hne : a ≠ [] := by
      intro hh; subst hh; simp at hgt
    obtain ⟨n, hn⟩ : ∃ n, a.length + b.length = n + 1 :=
      ⟨a.length + b.length - 1, by have := List.length_pos.mpr hne; omega⟩
    have hd : a.dropLast.length + b.length = n := by
      rw [List.length_dropLast]
      have := List.length_pos.mpr hne
      omega
    rw [_truncate_seq_pair, hn, truncateLoop_succ_pop_a n hle hgt,
      truncateLoop_fuel_eq n a.dropLast b (by omega)]
  · intro hba
    cases b with
    | nil =>
      have ha : a = [] := by
        simp at hba
        exact hba
      subst ha
      rfl
    | cons x xs =>
      obtain ⟨n, hn⟩ : ∃ n, a.length + (x :: xs).length = n + 1 :=
        ⟨a.length + (x :: xs).length - 1, by simp; omega⟩
      have hd : a.length + (x :: xs).dropLast.length = n := by
        rw [List.length_dropLast]
        simp at hn ⊢
        omega
      rw [_truncate_seq_pair, hn,
        truncateLoop_succ_pop_b n hle (by omega),
        truncateLoop_fuel_eq n a (x :: xs).dropLast (by omega)]

theorem C2_truncation_policy_witness :
    ((0 : Int) < ([5, 6] : List Nat).length + ([7] : List Nat).length) ∧
    (_truncate_seq_pair ([5, 6] : List Nat) [7] (0 : Int) =
      _truncate_seq_pair (([5, 6] : List Nat).dropLast) [7] (0 : Int)) ∧
    (_truncate_seq_pair ([5] : List Nat) [7] (0 : Int) =
      _truncate_seq_pair [5] (([7] : List Nat).dropLast) (0 : Int)) :=
  ⟨by decide,
   (C2_truncation_policy [5, 6] [7] 0 (by decide)).1 (by decide),
   (C2_truncation_policy [5] [7] 0 (by decide)).2 (by decide)⟩

/-! ## Data model (`InputExample`, lines 53-71; `InputFeatures`, lines 74-82) -/

/-- Model of `InputExample(guid, text_a, text_b=None, label=None)`. -/
structure InputExample where
  guid : String
  text_a : String
  text_b : Option String
  label : Option String
deriving DecidableEq

/-- Model of `InputFeatures(input_ids, input_mask, segment_ids, label_id,
    article_id=None)`; vocabulary ids are Python ints, mask entries are the
    literals 0/1, segment ids the literals 0/1. -/
structure InputFeatures where
  input_ids : List Int
  input_mask : List Nat
  segment_ids : List Nat
  label_id : Option Nat
  article_id : Option String
deriving DecidableEq

/-! ## Cached-split example source (`SemevalProcessor`, lines 253-291) -/

/-- State of `SemevalProcessor`: `__init__` sets `self.examples = None`; the first getter
    call caches the result of `_create_examples` (file reading, passed in
    here as the `loaded` argument of the getters). -/
structure SemevalProcessor where
  examples : Option (List InputExample)
deriving DecidableEq

/-- Value of `math.floor(0.8 * n)` for a list length `n`. For every length below 2^50
    the double product `fl(0.8) * n` differs from the real `0.8 * n` by well
    under half an ulp, so it never rounds across an integer and its floor is
    `⌊4n/5⌋`, i.e. natural-number `4 * n / 5`. -/
def floor08 (n : Nat) : Nat := 4 * n / 5

/-- Method `get_train_examples` (lines 259-264). The cached branch returns
    `self.examples[:math.floor(len(self.examples))]` — a slice to the full
    length, i.e. the whole cached list (the `0.8 *` factor is absent there,
    unlike in the not-yet-cached branch). -/
def SemevalProcessor.get_train_examples (loaded : List InputExample)
    (p : SemevalProcessor) : List InputExample × SemevalProcessor :=
  match p.examples with
  | some exs => (exs.take exs.length, p)
  | none => (loaded.take (floor08 loaded.length), ⟨some loaded⟩)

/-- Method `get_dev_examples` (lines 266-271): both branches slice from
    `math.floor(0.8 * len(examples))` to the end. -/
def SemevalProcessor.get_dev_examples (loaded : List InputExample)
    (p : SemevalProcessor) : List InputExample × SemevalProcessor :=
  match p.examples with
  | some exs => (exs.drop (floor08 exs.length), p)
  | none => (loaded.drop (floor08 loaded.length), ⟨some loaded⟩)

def c1Example (g : String) : InputExample :=
  ⟨g, "text", none, some "false"⟩

def c1Examples : List InputExample :=
  [c1Example "0", c1Example "1", c1Example "2", c1Example "3", c1Example "4"]

/-- C1 fails on the code (a code bug, not spec intent): on a 5-example
    sequence the first train call returns `examples[0:4]` and caches, but
    every train call after caching returns the WHOLE list
    (`examples[:math.floor(len(examples))]`), so example 4 is returned by
    both the cached train split and the dev split. -/
theorem C1_cached_split_bug :
    (SemevalProcessor.get_train_examples c1Examples ⟨none⟩).1 =
      c1Examples.take 4 ∧
    (SemevalProcessor.get_train_examples c1Examples ⟨none⟩).2 =
      ⟨some c1Examples⟩ ∧
    (SemevalProcessor.get_train_examples c1Examples ⟨some c1Examples⟩).1 =
      c1Examples ∧
    (SemevalProcessor.get_dev_examples c1Examples ⟨some c1Examples⟩).1 =
      c1Examples.drop 4 ∧
    c1Example "4" ∈
      (SemevalProcessor.get_train_examples c1Examples ⟨some c1Examples⟩).1 ∧
    c1Example "4" ∈
      (SemevalProcessor.get_dev_examples c1Examples ⟨some c1Examples⟩).1 ∧
    (SemevalProcessor.get_train_examples c1Examples ⟨some c1Examples⟩).1 ≠
      c1Examples.take 4 := by
  decide

/-! ## Augmentor (`permutation`, lines 337-350)

    ```
    def permutation(tokens, permute_ngrams):
        if permute_ngrams is None:
            return tokens
        ngrams = []
        i = 0
        num_tokens = len(tokens)
        while i < num_tokens:
            ngrams.append(tokens[i:i+permute_ngrams])
            i += permute_ngrams
        random.shuffle(ngrams)
        return reduce(lambda a,b: a + b, ngrams, [])
    ```
-/

/-- Python slice-index normalization for `tokens[i:j]` with unit step: a
    negative index counts from the end, then the index is clamped to
    `[0, n]`. -/
def pySliceIdx (n : Nat) (i : Int) : Nat :=
  if i < 0 then ((n : Int) + i).toNat else min i.toNat n

/-- Python `tokens[i:j]` (unit step): the elements from normalized `i`
    (inclusive) to normalized `j` (exclusive). -/
def pySlice (tokens : List α) (i j : Int) : List α :=
  (tokens.take (pySliceIdx tokens.length j)).drop (pySliceIdx tokens.length i)

/-- The chunking loop of `permutation`:
    `while i < num_tokens: ngrams.append(tokens[i:i+w]); i += w`.
    Fuel-indexed; `none` means the fuel ran out with `i` still below
    `len(tokens)`. For `w ≥ 1` fuel `len(tokens)` always suffices; for
    `w ≤ 0` and non-empty `tokens`, `i` never reaches `len(tokens)` and the
    loop runs forever (`none` for every fuel). -/
def ngramsLoop (tokens : List α) (w : Int) (fuel : Nat) (i : Int) :
    Option (List (List α)) :=
  if i < (tokens.length : Int) then
    match fuel with
    | 0 => none
    | fuel + 1 =>
      (ngramsLoop tokens w fuel (i + w)).map
        (fun rest => pySlice tokens i (i + w) :: rest)
  else some []

theorem ngramsLoop_stop {tokens : List α} {w : Int} {i : Int} (fuel : Nat)
    (h : ¬ i < (tokens.length : Int)) :
    ngramsLoop tokens w fuel i = some [] := by
  cases fuel <;> rw [ngramsLoop.eq_def] <;> simp [h]

theorem ngramsLoop_zero {tokens : List α} {w : Int} {i : Int}
    (h : i < (tokens.length : Int)) :
    ngramsLoop tokens w 0 i = none := by
  rw [ngramsLoop.eq_def, if_pos h]

theorem ngramsLoop_succ {tokens : List α} {w : Int} {i : Int} (fuel : Nat)
    (h : i < (tokens.length : Int)) :
    ngramsLoop tokens w (fuel + 1) i =
      (ngramsLoop tokens w fuel (i + w)).map
        (fun rest => pySlice tokens i (i + w) :: rest) := by
  rw [ngramsLoop.eq_def, if_pos h]

/-- Model of `permutation(tokens, permute_ngrams)`. `random.shuffle` is an external
    effect on module-level random state; it is modelled by the `shuffle`
    parameter, about which theorems assume only that it permutes its
    argument. `reduce(lambda a,b: a + b, ngrams, [])` is the left fold of
    append over the shuffled chunk list. -/
def permutation (shuffle : List (List α) → List (List α)) (tokens : List α)
    (permute_ngrams : Option Int) : Option (List α) :=
  match permute_ngrams with
  | none => some tokens
  | some w =>
    (ngramsLoop tokens w tokens.length 0).map
      (fun ngrams => (shuffle ngrams).foldl (· ++ ·) [])

/-- The consecutive chunks `[tokens[0:w], tokens[w:2w], ...]` (final chunk
    possibly shorter), proved below to be exactly what the chunking loop
    builds when `w ≥ 1`. -/
def chunksOf (w : Nat) : List α → List (List α)
  | [] => []
  | x :: xs => (x :: xs).take w :: chunksOf w (xs.drop (w - 1))
termination_by l => l.length
decreasing_by
  simp only [List.length_drop, List.length_cons]
  omega

theorem chunksOf_nil (w : Nat) : chunksOf w ([] : List α) = [] := by
  rw [chunksOf]

theorem chunksOf_cons_eq (w : Nat) (hw : 1 ≤ w) (l : List α) (hl : l ≠ []) :
    chunksOf w l = l.take w :: chunksOf w (l.drop w) := by
  match l, hl with
  | x :: xs, _ =>
    have hdrop : (x :: xs).drop w = xs.drop (w - 1) := by
      cases w with
      | zero => omega
      | succ n => simp
    rw [chunksOf, hdrop]

theorem foldl_append_eq_flatten (l : List (List α)) :
    ∀ acc : List α, l.foldl (· ++ ·) acc = acc ++ l.flatten := by
  induction l with
  | nil => intro acc; simp
  | cons x xs ih => intro acc; simp [ih, List.append_assoc]

/-- Slice `tokens[i : i + w]` for a position `i < len(tokens)` and width `w ≥ 1` is
    the first `w` tokens of `tokens.drop i`. -/
theorem pySlice_drop_take (tokens : List α) (i : Nat) {w : Int} (hw : 1 ≤ w)
    (hlt : i < tokens.length) :
    pySlice tokens (i : Int) (((i + w.toNat : Nat) : Int)) =
      (tokens.drop i).take w.toNat := by
  rw [pySlice, pySliceIdx, pySliceIdx, if_neg (by omega), if_neg (by omega)]
  rw [show (((i + w.toNat : Nat) : Int)).toNat = i + w.toNat from by omega]
  rw [show ((i : Nat) : Int).toNat = i from by omega]
  rw [min_eq_left (le_of_lt hlt)]
  rw [List.drop_take]
  rw [List.take_eq_take]
  simp only [List.length_take, List.length_drop]
  omega

/-- For `w ≥ 1`, the chunking loop from position `i` with fuel at least
    `len(tokens) - i` answers with the chunks of `tokens.drop i`. -/
theorem ngramsLoop_eq_chunksOf {w : Int} (hw : 1 ≤ w) (tokens : List α) :
    ∀ (fuel : Nat) (i : Nat), tokens.length - i ≤ fuel →
      ngramsLoop tokens w fuel (i : Int) =
        some (chunksOf w.toNat (tokens.drop i)) := by
  intro fuel
  induction fuel with
  | zero =>
    intro i hi
    have hge : tokens.length ≤ i := by omega
    rw [ngramsLoop_stop 0 (by exact_mod_cast not_lt.mpr hge),
      List.drop_eq_nil_of_le hge, chunksOf_nil]
  | succ fuel ih =>
    intro i hi
    by_cases hlt : i < tokens.length
    · rw [ngramsLoop_succ fuel (by exact_mod_cast hlt)]
      have hwcast : (w.toNat : Int) = w := Int.toNat_of_nonneg (by omega)
      have hstep : (i : Int) + w = ((i + w.toNat : Nat) : Int) := by
        push_cast [hwcast]
        ring
      have hw1 : 1 ≤ w.toNat := by omega
      rw [hstep, ih (i + w.toNat) (by omega)]
      have hne : tokens.drop i ≠ [] := by
        intro hh
        have := List.drop_eq_nil_iff.mp hh
        omega
      rw [chunksOf_cons_eq w.toNat hw1 (tokens.drop i) hne,
        pySlice_drop_take tokens i hw hlt]
      simp only [Option.map_some']
      rw [List.drop_drop]
    · rw [ngramsLoop_stop (fuel + 1) (by exact_mod_cast not_lt.mpr (le_of_not_lt hlt)),
        List.drop_eq_nil_of_le (le_of_not_lt hlt), chunksOf_nil]

/-- For `w ≤ 0` and non-empty `tokens`, the loop index never advances past
    `len(tokens)`: every fuel exhausts, i.e. the Python loop never ends. -/
theorem ngramsLoop_none_of_nonpos {w : Int} (hw : w ≤ 0) (tokens : List α)
    (ht : tokens ≠ []) :
    ∀ (fuel : Nat) (i : Int), i ≤ 0 → ngramsLoop tokens w fuel i = none := by
  have hpos : 0 < (tokens.length : Int) := by
    exact_mod_cast List.length_pos.mpr ht
  intro fuel
  induction fuel with
  | zero =>
    intro i hi
    exact ngramsLoop_zero (by omega)
  | succ fuel ih =>
    intro i hi
    rw [ngramsLoop_succ fuel (by omega), ih (i + w) (by omega)]
    rfl

theorem permutation_some_eq (shuffle : List (List α) → List (List α))
    (tokens : List α) {w : Int} (hw : 1 ≤ w) :
    permutation shuffle tokens (some w) =
      some ((shuffle (chunksOf w.toNat tokens)).foldl (· ++ ·) []) := by
  rw [permutation]
  rw [show (0 : Int) = ((0 : Nat) : Int) from rfl,
    ngramsLoop_eq_chunksOf hw tokens tokens.length 0 (by omega)]
  rfl

/-- C8: with null chunk width the augmentor is the identity; with width
    `w ≥ 1` it returns the concatenation of the permutation that
    `random.shuffle` produced of the consecutive chunks
    `[tokens[0:w], tokens[w:2w], ...]` (final chunk possibly shorter,
    intra-chunk order untouched); in particular for a 5-token input with
    width 2 the chunks are `[t0,t1]`, `[t2,t3]`, `[t4]`. -/
theorem C8_augmentor (shuffle : List (List Nat) → List (List Nat))
    (hshuffle : ∀ l, (shuffle l).Perm l) (tokens : List Nat) (w : Int)
    (hw : 1 ≤ w) :
    permutation shuffle tokens none = some tokens ∧
    permutation shuffle tokens (some w) =
      some ((shuffle (chunksOf w.toNat tokens)).flatten) ∧
    (shuffle (chunksOf w.toNat tokens)).Perm (chunksOf w.toNat tokens) ∧
    chunksOf 2 [10, 11, 12, 13, 14] = [[10, 11], [12, 13], [14]] := by
  refine ⟨rfl, ?_, hshuffle _, ?_⟩
  · rw [permutation_some_eq shuffle tokens hw, foldl_append_eq_flatten]
    simp
  · simp [chunksOf]

theorem C8_augmentor_witness :
    (1 : Int) ≤ 2 ∧
    (permutation id [3, 4, 5] none = some [3, 4, 5] ∧
     permutation id [3, 4, 5] (some 2) =
       some ((id (chunksOf (2 : Int).toNat [3, 4, 5])).flatten) ∧
     (id (chunksOf (2 : Int).toNat [3, 4, 5])).Perm
       (chunksOf (2 : Int).toNat [3, 4, 5]) ∧
     chunksOf 2 [10, 11, 12, 13, 14] = [[10, 11], [12, 13], [14]]) :=
  ⟨by decide, C8_augmentor id (fun l => List.Perm.refl l) [3, 4, 5] 2 (by decide)⟩

/-- C10: the augmentor terminates when the chunk width is null (identity) or
    at least 1 (fuel `len(tokens)` suffices), but for any non-positive width
    and a non-empty token sequence the chunking loop never advances: it
    exhausts EVERY fuel, i.e. the Python `while` loop never terminates, so
    width ≥ 1 is a necessary precondition for totality. -/
theorem C10_augmentor_termination (shuffle : List (List Nat) → List (List Nat))
    (tokens : List Nat) (w : Int) :
    permutation shuffle tokens none = some tokens ∧
    (1 ≤ w → (permutation shuffle tokens (some w)).isSome) ∧
    (w ≤ 0 → tokens ≠ [] → ∀ fuel, ngramsLoop tokens w fuel 0 = none) ∧
    (w ≤ 0 → tokens ≠ [] → permutation shuffle tokens (some w) = none) := by
  refine ⟨rfl, ?_, ?_, ?_⟩
  · intro hw
    rw [permutation_some_eq shuffle tokens hw]
    rfl
  · intro hw ht fuel
    exact ngramsLoop_none_of_nonpos hw tokens ht fuel 0 le_rfl
  · intro hw ht
    rw [permutation, ngramsLoop_none_of_nonpos hw tokens ht tokens.length 0 le_rfl]
    rfl

theorem C10_augmentor_termination_witness :
    (permutation id [9] none = some [9] ∧
     ((1 : Int) ≤ 1 ∧ (permutation id [9] (some 1)).isSome) ∧
     ((0 : Int) ≤ 0 ∧ ([9] : List Nat) ≠ [] ∧
       ngramsLoop [9] (0 : Int) 5 0 = none ∧
       permutation id [9] (some 0) = none)) :=
  ⟨(C10_augmentor_termination id [9] 1).1,
   ⟨by decide, (C10_augmentor_termination id [9] 1).2.1 (by decide)⟩,
   ⟨by decide, by decide,
    (C10_augmentor_termination id [9] 0).2.2.1 (by decide) (by decide) 5,
    (C10_augmentor_termination id [9] 0).2.2.2 (by decide) (by decide)⟩⟩

/-! ## Feature assembler (`construct_features`, lines 353-445) -/

/-- The external subword tokenizer (`BertTokenizer`), specified only at its
    boundary: `tokenize(text) -> tokens`, and a vocabulary mapping each token
    to its id (`convert_tokens_to_ids` applies it tokenwise). -/
structure Tokenizer where
  tokenize : String → List String
  tokenToId : String → Int

/-- Model of `tokenizer.convert_tokens_to_ids(tokens)`: one vocabulary id per token. -/
def Tokenizer.convert_tokens_to_ids (tok : Tokenizer)
    (tokens : List String) : List Int :=
  tokens.map tok.tokenToId

/-- Python `s.split(c)` for a one-character separator (as in
    `example.guid.split('-')`, line 445): split at every occurrence of `c`,
    keeping empty pieces; the result is always non-empty. -/
def splitChars (c : Char) : List Char → List (List Char)
  | [] => [[]]
  | x :: xs =>
    if x = c then [] :: splitChars c xs
    else
      match splitChars c xs with
      | [] => [[x]]
      | y :: ys => (x :: y) :: ys

/-- Lines 359-362: `tokens_b` stays `None` unless `example.text_b` is truthy
    (in Python the empty string is falsy), in which case it is tokenized and
    augmented. The outer `Option` is the run (augmentor divergence = `none`),
    the inner one is `tokens_b` itself. -/
def tokens_b_of (tok : Tokenizer)
    (shuffle : List (List String) → List (List String)) (ex : InputExample)
    (permute_ngrams : Option Int) : Option (Option (List String)) :=
  match ex.text_b with
  | none => some none
  | some tbText =>
    if tbText = "" then some none
    else (permutation shuffle (tok.tokenize tbText) permute_ngrams).map some

/-- Lines 364-372: when `tokens_b` is truthy (not `None` and non-empty),
    truncate the pair to budget `max_seq_length - 3`; otherwise clip
    `tokens_a` to `tokens_a[0:(max_seq_length - 2)]` when it is longer than
    `max_seq_length - 2`. -/
def tokensAfterTruncation (ta : List String) (tokens_b0 : Option (List String))
    (max_seq_length : Nat) : Option (List String × Option (List String)) :=
  match tokens_b0 with
  | some (t :: ts) =>
    (_truncate_seq_pair ta (t :: ts) ((max_seq_length : Int) - 3)).map
      (fun p => (p.1, some p.2))
  | _ =>
    some ((if ((max_seq_length : Int) - 2) < (ta.length : Int)
           then pySlice ta 0 ((max_seq_length : Int) - 2) else ta), tokens_b0)

/-- Steps 4-5 (lines 392-407): `[CLS] tokens_a [SEP]` with segment id 0, then,
    when `tokens_b` is truthy, `tokens_b [SEP]` with segment id 1; each Python
    loop appends one segment id per appended token. -/
def assemble (tokens_a : List String) (tokens_b : Option (List String)) :
    List String × List Nat :=
  let base := ("[CLS]" :: tokens_a ++ ["[SEP]"],
    List.replicate (tokens_a.length + 2) 0)
  match tokens_b with
  | some (t :: ts) =>
    (base.1 ++ (t :: ts) ++ ["[SEP]"],
     base.2 ++ List.replicate ((t :: ts).length + 1) 1)
  | _ => base

/-- The zero-padding loop (lines 416-419):
    `while len(input_ids) < max_seq_length:` append 0 to all three arrays. It
    runs exactly `max_seq_length - len(input_ids)` times (zero iterations
    when already long enough). -/
def padLoop : Nat → List Int × List Nat × List Nat →
    List Int × List Nat × List Nat
  | 0, arrs => arrs
  | n + 1, arrs => padLoop n (arrs.1 ++ [0], arrs.2.1 ++ [0], arrs.2.2 ++ [0])

/-- Lines 356-423 of `construct_features`: tokenize, augment, truncate,
    assemble with boundary markers, convert to vocabulary ids, build the
    mask, zero-pad, and the three `assert len(...) == max_seq_length` checks.
    `none` marks a run on which Python raises or diverges (augmentor
    divergence, truncator `IndexError`, or `AssertionError`). -/
def featureArrays (tok : Tokenizer)
    (shuffle : List (List String) → List (List String)) (ex : InputExample)
    (max_seq_length : Nat) (permute_ngrams : Option Int) :
    Option (List Int × List Nat × List Nat) :=
  (permutation shuffle (tok.tokenize ex.text_a) permute_ngrams).bind fun ta =>
    (tokens_b_of tok shuffle ex permute_ngrams).bind fun tokens_b0 =>
      (tokensAfterTruncation ta tokens_b0 max_seq_length).bind fun tt =>
        if (padLoop
              (max_seq_length -
                (tok.convert_tokens_to_ids (assemble tt.1 tt.2).1).length)
              (tok.convert_tokens_to_ids (assemble tt.1 tt.2).1,
               List.replicate
                 (tok.convert_tokens_to_ids (assemble tt.1 tt.2).1).length 1,
               (assemble tt.1 tt.2).2)).1.length = max_seq_length ∧
            ((padLoop
              (max_seq_length -
                (tok.convert_tokens_to_ids (assemble tt.1 tt.2).1).length)
              (tok.convert_tokens_to_ids (assemble tt.1 tt.2).1,
               List.replicate
                 (tok.convert_tokens_to_ids (assemble tt.1 tt.2).1).length 1,
               (assemble tt.1 tt.2).2)).2.1.length = max_seq_length ∧
             (padLoop
              (max_seq_length -
                (tok.convert_tokens_to_ids (assemble tt.1 tt.2).1).length)
              (tok.convert_tokens_to_ids (assemble tt.1 tt.2).1,
               List.replicate
                 (tok.convert_tokens_to_ids (assemble tt.1 tt.2).1).length 1,
               (assemble tt.1 tt.2).2)).2.2.length = max_seq_length)
        then some (padLoop
              (max_seq_length -
                (tok.convert_tokens_to_ids (assemble tt.1 tt.2).1).length)
              (tok.convert_tokens_to_ids (assemble tt.1 tt.2).1,
               List.replicate
                 (tok.convert_tokens_to_ids (assemble tt.1 tt.2).1).length 1,
               (assemble tt.1 tt.2).2))
        else none

/-- Model of `construct_features` (lines 353-445): the arrays, then label resolution —
    training/eval mode looks up `label_map[example.label]` (`KeyError`, e.g.
    an absent or unknown label, is `none`); predict mode leaves `label_id`
    `None` and sets `article_id = example.guid.split('-')[1]` (`IndexError`
    when the guid holds no `'-'` is `none`). The first-record logging (lines
    430-440) is an external side effect with no influence on the result and
    is not modelled. -/
def construct_features (tok : Tokenizer)
    (shuffle : List (List String) → List (List String)) (ex : InputExample)
    (max_seq_length : Nat) (label_map : String → Option Nat) (predict : Bool)
    (permute_ngrams : Option Int) : Option InputFeatures :=
  (featureArrays tok shuffle ex max_seq_length permute_ngrams).bind fun arrs =>
    if predict then
      ((splitChars '-' ex.guid.data).get? 1).bind fun piece =>
        some ⟨arrs.1, arrs.2.1, arrs.2.2, none, some (String.mk piece)⟩
    else
      ex.label.bind fun lab =>
        (label_map lab).bind fun lid =>
          some ⟨arrs.1, arrs.2.1, arrs.2.2, some lid, none⟩

/-- Model of `SemevalOfficialProcessor._create_examples` (lines 232-237): one example
    per streamed article, `guid = "%s-%s" % (set_type, article_id)` with
    `set_type = "inference"` in `get_dev_examples` (line 217), `text_a` the
    extracted article text, no `text_b`, no label. -/
def officialExample (set_type article_id text : String) : InputExample :=
  ⟨set_type ++ "-" ++ article_id, text, none, none⟩

theorem permutation_isSome (shuffle : List (List α) → List (List α))
    (ts : List α) (pn : Option Int) (hw : ∀ w, pn = some w → 1 ≤ w) :
    (permutation shuffle ts pn).isSome := by
  cases pn with
  | none => rfl
  | some w =>
    rw [permutation_some_eq shuffle ts (hw w rfl)]
    rfl

theorem padLoop_eq (n : Nat) :
    ∀ (ids : List Int) (mask segs : List Nat),
      padLoop n (ids, mask, segs) =
        (ids ++ List.replicate n 0, mask ++ List.replicate n 0,
         segs ++ List.replicate n 0) := by
  induction n with
  | zero => intro ids mask segs; simp [padLoop]
  | succ n ih =>
    intro ids mask segs
    rw [padLoop, ih]
    simp [List.append_assoc, List.replicate_succ]

theorem assemble_snd_length (ta : List String) (tb : Option (List String)) :
    (assemble ta tb).2.length = (assemble ta tb).1.length := by
  rcases tb with _ | ⟨_ | ⟨t, ts⟩⟩ <;> (simp [assemble]; try omega)

theorem assemble_fst_length_single (ta : List String)
    (tb : Option (List String)) (h : tb = none ∨ tb = some []) :
    (assemble ta tb).1.length = ta.length + 2 := by
  rcases h with h | h <;> subst h <;> (simp [assemble]; try omega)

theorem assemble_fst_length_pair (ta : List String) (t : String)
    (ts : List String) :
    (assemble ta (some (t :: ts))).1.length = ta.length + ts.length + 4 := by
  simp [assemble]
  omega

/-- The single-sequence clip (lines 371-372) leaves room for the two
    boundary markers. -/
theorem clipped_length_le (ta : List String) {L : Nat} (hL : 3 ≤ L) :
    (if ((L : Int) - 2) < (ta.length : Int)
     then pySlice ta 0 ((L : Int) - 2) else ta).length + 2 ≤ L := by
  split
  · rw [pySlice, pySliceIdx, pySliceIdx, if_neg (by omega), if_neg (by omega)]
    simp only [List.length_drop, List.length_take]
    omega
  · rename_i hcond
    omega

/-- For `L ≥ 3` the truncation step succeeds and leaves tokens for an
    assembly of length at most `L`. -/
theorem tokensAfterTruncation_spec (ta : List String)
    (tb0 : Option (List String)) {L : Nat} (hL : 3 ≤ L) :
    ∃ p, tokensAfterTruncation ta tb0 L = some p ∧
      (assemble p.1 p.2).1.length ≤ L := by
  match tb0 with
  | some (t :: ts) =>
    have h0 : (0 : Int) ≤ (L : Int) - 3 := by omega
    obtain ⟨q, hq⟩ := Option.isSome_iff_exists.mp
      (truncateLoop_isSome h0 (ta.length + (t :: ts).length) ta (t :: ts)
        le_rfl)
    obtain ⟨pa, pb⟩ := q
    have hq' : _truncate_seq_pair ta (t :: ts) ((L : Int) - 3) =
        some (pa, pb) := hq
    have hle := truncateLoop_le hq
    refine ⟨(pa, some pb), ?_, ?_⟩
    · simp [tokensAfterTruncation, hq']
    · show (assemble pa (some pb)).1.length ≤ L
      cases pb with
      | nil =>
        rw [assemble_fst_length_single pa (some []) (Or.inr rfl)]
        simp at hle
        omega
      | cons u us =>
        rw [assemble_fst_length_pair]
        simp at hle
        omega
  | some [] =>
    refine ⟨_, rfl, ?_⟩
    show (assemble _ (some [])).1.length ≤ L
    rw [assemble_fst_length_single _ (some []) (Or.inr rfl)]
    exact clipped_length_le ta hL
  | none =>
    refine ⟨_, rfl, ?_⟩
    show (assemble _ none).1.length ≤ L
    rw [assemble_fst_length_single _ none (Or.inl rfl)]
    exact clipped_length_le ta hL

/-- With `L ≥ 3` and positive chunk widths the assembly phase succeeds and
    all three arrays come out with length exactly `L` (the asserts at lines
    421-423 pass). -/
theorem featureArrays_some (tok : Tokenizer)
    (shuffle : List (List String) → List (List String)) (ex : InputExample)
    (L : Nat) (pn : Option Int) (hL : 3 ≤ L)
    (hw : ∀ w, pn = some w → 1 ≤ w) :
    ∃ arrs, featureArrays tok shuffle ex L pn = some arrs ∧
      arrs.1.length = L ∧ arrs.2.1.length = L ∧ arrs.2.2.length = L := by
  obtain ⟨ta, hta⟩ := Option.isSome_iff_exists.mp
    (permutation_isSome shuffle (tok.tokenize ex.text_a) pn hw)
  obtain ⟨tb0, htb0⟩ : ∃ tb0, tokens_b_of tok shuffle ex pn = some tb0 := by
    rw [tokens_b_of]
    cases hb : ex.text_b with
    | none => exact ⟨none, rfl⟩
    | some tbText =>
      by_cases he : tbText = ""
      · exact ⟨none, by simp [he]⟩
      · obtain ⟨tb, htb⟩ := Option.isSome_iff_exists.mp
          (permutation_isSome shuffle (tok.tokenize tbText) pn hw)
        exact ⟨some tb, by simp [he, htb]⟩
  obtain ⟨p, hp, hplen⟩ := tokensAfterTruncation_spec ta tb0 hL
  have hids0 : (tok.convert_tokens_to_ids (assemble p.1 p.2).1).length =
      (assemble p.1 p.2).1.length := by
    simp [Tokenizer.convert_tokens_to_ids]
  have hmask0 := assemble_snd_length p.1 p.2
  simp only [featureArrays, hta, htb0, hp, Option.some_bind]
  rw [padLoop_eq]
  have hc1 : (tok.convert_tokens_to_ids (assemble p.1 p.2).1 ++
      List.replicate
        (L - (tok.convert_tokens_to_ids (assemble p.1 p.2).1).length)
        (0 : Int)).length = L := by
    simp only [List.length_append, List.length_replicate, hids0]
    omega
  have hc2 : (List.replicate
      (tok.convert_tokens_to_ids (assemble p.1 p.2).1).length 1 ++
      List.replicate
        (L - (tok.convert_tokens_to_ids (assemble p.1 p.2).1).length)
        (0 : Nat)).length = L := by
    simp only [List.length_append, List.length_replicate, hids0]
    omega
  have hc3 : ((assemble p.1 p.2).2 ++
      List.replicate
        (L - (tok.convert_tokens_to_ids (assemble p.1 p.2).1).length)
        (0 : Nat)).length = L := by
    simp only [List.length_append, List.length_replicate, hids0, hmask0]
    omega
  rw [if_pos ⟨hc1, hc2, hc3⟩]
  exact ⟨_, rfl, hc1, hc2, hc3⟩

/-- Every success of `featureArrays` consists of an unpadded prefix (the real
    content: one id per assembled token, all-ones mask, the assembled segment
    ids) followed by zero padding to length `L`. -/
theorem featureArrays_shape {tok : Tokenizer}
    {shuffle : List (List String) → List (List String)} {ex : InputExample}
    {L : Nat} {pn : Option Int} {ids : List Int} {mask segs : List Nat}
    (h : featureArrays tok shuffle ex L pn = some (ids, mask, segs)) :
    ∃ (ids0 : List Int) (segs0 : List Nat),
      ids0.length ≤ L ∧ segs0.length = ids0.length ∧
      ids = ids0 ++ List.replicate (L - ids0.length) 0 ∧
      mask = List.replicate ids0.length 1 ++
        List.replicate (L - ids0.length) 0 ∧
      segs = segs0 ++ List.replicate (L - ids0.length) 0 := by
  simp only [featureArrays] at h
  rcases hper : permutation shuffle (tok.tokenize ex.text_a) pn with _ | ta
  · rw [hper] at h
    exact absurd h (by simp)
  rw [hper, Option.some_bind] at h
  rcases htb : tokens_b_of tok shuffle ex pn with _ | tb0
  · rw [htb] at h
    exact absurd h (by simp)
  rw [htb, Option.some_bind] at h
  rcases htr : tokensAfterTruncation ta tb0 L with _ | p
  · rw [htr] at h
    exact absurd h (by simp)
  rw [htr, Option.some_bind, padLoop_eq] at h
  split at h
  · rename_i hcond
    simp only [Option.some.injEq, Prod.mk.injEq] at h
    obtain ⟨h1, h2, h3⟩ := h
    refine ⟨tok.convert_tokens_to_ids (assemble p.1 p.2).1,
      (assemble p.1 p.2).2, ?_, ?_, h1.symm, h2.symm, ?_⟩
    · have hlen1 := hcond.1
      simp only [List.length_append, List.length_replicate] at hlen1
      omega
    · rw [assemble_snd_length]
      simp [Tokenizer.convert_tokens_to_ids]
    · exact h3.symm
  · exact absurd h (by simp)

/-- The success branches of `construct_features` carry the three arrays of
    `featureArrays` through unchanged. -/
theorem construct_features_arrays {tok : Tokenizer}
    {shuffle : List (List String) → List (List String)} {ex : InputExample}
    {L : Nat} {label_map : String → Option Nat} {predict : Bool}
    {pn : Option Int} {f : InputFeatures}
    (hf : construct_features tok shuffle ex L label_map predict pn = some f) :
    ∃ arrs, featureArrays tok shuffle ex L pn = some arrs ∧
      f.input_ids = arrs.1 ∧ f.input_mask = arrs.2.1 ∧
      f.segment_ids = arrs.2.2 := by
  simp only [construct_features] at hf
  rcases hfa : featureArrays tok shuffle ex L pn with _ | arrs
  · rw [hfa] at hf
    exact absurd hf (by simp)
  rw [hfa, Option.some_bind] at hf
  refine ⟨arrs, rfl, ?_⟩
  split at hf
  · rcases hg : (splitChars '-' ex.guid.data).get? 1 with _ | piece
    · rw [hg] at hf
      exact absurd hf (by simp)
    · rw [hg, Option.some_bind] at hf
      cases hf
      exact ⟨rfl, rfl, rfl⟩
  · rcases hlab : ex.label with _ | lab
    · rw [hlab] at hf
      exact absurd hf (by simp)
    · rw [hlab, Option.some_bind] at hf
      rcases hlid : label_map lab with _ | lid
      · rw [hlid] at hf
        exact absurd hf (by simp)
      · rw [hlid, Option.some_bind] at hf
        cases hf
        exact ⟨rfl, rfl, rfl⟩

/-- C3: for `L ≥ 3`, positive chunk widths, a resolvable label in training
    mode and a splittable guid in inference mode, the assembler produces a
    FeatureRecord whose `input_ids`, `input_mask` and `segment_ids` all have
    length exactly `L` — in single-sequence and pair mode, training and
    inference mode alike (the length asserts never fire). -/
theorem C3_feature_lengths (tok : Tokenizer)
    (shuffle : List (List String) → List (List String)) (ex : InputExample)
    (L : Nat) (label_map : String → Option Nat) (predict : Bool)
    (pn : Option Int)
    (hL : 3 ≤ L) (hw : ∀ w, pn = some w → 1 ≤ w)
    (hlabel : predict = false →
      ∃ lab, ex.label = some lab ∧ (label_map lab).isSome)
    (hguid : predict = true → 2 ≤ (splitChars '-' ex.guid.data).length) :
    ∃ f, construct_features tok shuffle ex L label_map predict pn = some f ∧
      f.input_ids.length = L ∧ f.input_mask.length = L ∧
      f.segment_ids.length = L := by
  obtain ⟨arrs, hfa, h1, h2, h3⟩ := featureArrays_some tok shuffle ex L pn hL hw
  simp only [construct_features, hfa, Option.some_bind]
  cases predict with
  | true =>
    rw [if_pos rfl]
    have hg := hguid rfl
    obtain ⟨piece, hpiece⟩ :
        ∃ piece, (splitChars '-' ex.guid.data).get? 1 = some piece := by
      cases hq : (splitChars '-' ex.guid.data).get? 1 with
      | none =>
        have := List.get?_eq_none.mp hq
        omega
      | some piece => exact ⟨piece, rfl⟩
    rw [hpiece, Option.some_bind]
    exact ⟨_, rfl, h1, h2, h3⟩
  | false =>
    rw [if_neg Bool.false_ne_true]
    obtain ⟨lab, hlab, hlid⟩ := hlabel rfl
    obtain ⟨lid, hlid2⟩ := Option.isSome_iff_exists.mp hlid
    rw [hlab, Option.some_bind, hlid2, Option.some_bind]
    exact ⟨_, rfl, h1, h2, h3⟩

/-- A concrete one-token-per-text tokenizer for closed instances. -/
def tok0 : Tokenizer := ⟨fun s => [s], fun _ => 7⟩

theorem C3_feature_lengths_witness :
    (3 ≤ 8 ∧
     (∀ w : Int, (none : Option Int) = some w → 1 ≤ w) ∧
     (true = false → ∃ lab,
       (officialExample "inference" "42" "text").label = some lab ∧
         ((fun _ => none : String → Option Nat) lab).isSome) ∧
     (true = true → 2 ≤ (splitChars '-'
       (officialExample "inference" "42" "text").guid.data).length)) ∧
    (∃ f, construct_features tok0 id (officialExample "inference" "42" "text")
        8 (fun _ => none) true none = some f ∧
      f.input_ids.length = 8 ∧ f.input_mask.length = 8 ∧
      f.segment_ids.length = 8) :=
  ⟨⟨by decide, fun w h => Option.noConfusion h,
    fun h => Bool.noConfusion h, fun _ => by decide⟩,
   C3_feature_lengths tok0 id (officialExample "inference" "42" "text") 8
     (fun _ => none) true none (by decide) (fun w h => Option.noConfusion h)
     (fun h => Bool.noConfusion h) (fun _ => by decide)⟩

theorem getD_replicate_z {γ : Type} (z : γ) (k j : Nat) :
    (List.replicate k z).getD j z = z := by
  rw [List.getD_eq_getElem?_getD, List.getElem?_replicate]
  split <;> rfl

/-- C5: the mask of every produced FeatureRecord is a contiguous prefix of 1s
    (exactly one per token placed in the assembly step, boundary markers
    included; `n` is that count) followed by 0s up to `L`, and every position
    at or past the real content length holds 0 in all three arrays: padding
    is always trailing. -/
theorem C5_mask_padding (tok : Tokenizer)
    (shuffle : List (List String) → List (List String)) (ex : InputExample)
    (L : Nat) (label_map : String → Option Nat) (predict : Bool)
    (pn : Option Int) (f : InputFeatures)
    (hf : construct_features tok shuffle ex L label_map predict pn = some f) :
    ∃ n, n ≤ L ∧
      f.input_mask = List.replicate n 1 ++ List.replicate (L - n) 0 ∧
      (∀ i, i < n → f.input_mask.getD i 0 = 1) ∧
      (∀ i, n ≤ i → f.input_mask.getD i 0 = 0) ∧
      (∀ i, n ≤ i → f.input_ids.getD i 0 = 0) ∧
      (∀ i, n ≤ i → f.segment_ids.getD i 0 = 0) := by
  obtain ⟨arrs, hfa, hfi, hfm, hfs⟩ := construct_features_arrays hf
  obtain ⟨ids, mask, segs⟩ := arrs
  obtain ⟨ids0, segs0, hn, hseg, hids, hmask, hsegs⟩ := featureArrays_shape hfa
  refine ⟨ids0.length, hn, ?_, ?_, ?_, ?_, ?_⟩
  · rw [hfm]
    exact hmask
  · intro i hilt
    rw [hfm, hmask, List.getD_eq_getElem?_getD,
      List.getElem?_append_left (by simpa using hilt),
      List.getElem?_replicate, if_pos hilt]
    rfl
  · intro i hige
    rw [hfm, hmask, List.getD_eq_getElem?_getD,
      List.getElem?_append_right (by simpa using hige),
      List.getElem?_replicate]
    split <;> rfl
  · intro i hige
    rw [hfi, hids, List.getD_eq_getElem?_getD,
      List.getElem?_append_right hige, List.getElem?_replicate]
    split <;> rfl
  · intro i hige
    rw [hfs, hsegs, List.getD_eq_getElem?_getD,
      List.getElem?_append_right (hseg ▸ hige), List.getElem?_replicate]
    split <;> rfl

/-- The record built in the closed C5 instance below. -/
def c5Features : InputFeatures :=
  ⟨[7, 7, 7, 0], [1, 1, 1, 0], [0, 0, 0, 0], none, some "1"⟩

theorem C5_mask_padding_witness :
    construct_features tok0 id ⟨"t-1", "text", none, none⟩ 4
      (fun _ => none) true none = some c5Features ∧
    (∃ n, n ≤ 4 ∧
      c5Features.input_mask =
        List.replicate n 1 ++ List.replicate (4 - n) 0 ∧
      (∀ i, i < n → c5Features.input_mask.getD i 0 = 1) ∧
      (∀ i, n ≤ i → c5Features.input_mask.getD i 0 = 0) ∧
      (∀ i, n ≤ i → c5Features.input_ids.getD i 0 = 0) ∧
      (∀ i, n ≤ i → c5Features.segment_ids.getD i 0 = 0)) :=
  ⟨by decide,
   C5_mask_padding tok0 id ⟨"t-1", "text", none, none⟩ 4 (fun _ => none)
     true none c5Features (by decide)⟩

theorem splitChars_ne_nil (c : Char) (l : List Char) : splitChars c l ≠ [] := by
  cases l with
  | nil => simp [splitChars]
  | cons x xs =>
    by_cases hx : x = c
    · simp [splitChars, hx]
    · simp only [splitChars, if_neg hx]
      split <;> simp

theorem splitChars_not_mem (c : Char) (l : List Char) (h : c ∉ l) :
    splitChars c l = [l] := by
  induction l with
  | nil => rfl
  | cons x xs ih =>
    have hx : ¬ x = c := by
      intro hh
      exact h (by simp [hh])
    have hxs : c ∉ xs := fun hm => h (List.mem_cons_of_mem x hm)
    rw [splitChars, if_neg hx, ih hxs]

theorem splitChars_append (c : Char) (l₁ l₂ : List Char) (h : c ∉ l₁) :
    splitChars c (l₁ ++ c :: l₂) = l₁ :: splitChars c l₂ := by
  induction l₁ with
  | nil => simp [splitChars]
  | cons x xs ih =>
    have hx : ¬ x = c := by
      intro hh
      exact h (by simp [hh])
    have hxs : c ∉ xs := fun hm => h (List.mem_cons_of_mem x hm)
    rw [List.cons_append, splitChars, if_neg hx, ih hxs]

/-- C9 is false as stated: the streaming-XML source sets
    `guid = "inference-" + article_id` and predict mode recovers the record
    id as `guid.split('-')[1]`, so an article whose identifier itself holds a
    `'-'` — here `"a-b"` — gets record id `"a"`, not its identifier. -/
theorem C9_counterexample :
    (construct_features tok0 id (officialExample "inference" "a-b" "text") 8
      (fun _ => none) true none).map (fun f => f.article_id) =
      some (some "a") ∧
    some (some "a") ≠ some (some "a-b") := by
  constructor
  · decide
  · decide

/-- C9 (amended): in inference mode `label_id` is absent and the record id is
    `guid.split('-')[1]`; for streaming-XML examples
    (`guid = "inference-" + article_id`) that is the portion of the article
    identifier before its first `'-'` — the full identifier exactly when the
    identifier holds no `'-'`. -/
theorem C9_record_id (tok : Tokenizer)
    (shuffle : List (List String) → List (List String))
    (article_id text : String) (L : Nat) (label_map : String → Option Nat)
    (pn : Option Int) (f : InputFeatures)
    (hf : construct_features tok shuffle
      (officialExample "inference" article_id text) L label_map true pn =
        some f) :
    f.label_id = none ∧
    f.article_id = some (String.mk ((splitChars '-' article_id.data).headI)) ∧
    ('-' ∉ article_id.data → f.article_id = some article_id) := by
  have hguid : (officialExample "inference" article_id text).guid.data =
      "inference".data ++ '-' :: article_id.data := by
    show ("inference" ++ "-" ++ article_id).data = _
    rw [String.data_append, String.data_append]
    rfl
  have hsplit :
      splitChars '-' (officialExample "inference" article_id text).guid.data =
        "inference".data :: splitChars '-' article_id.data := by
    rw [hguid]
    exact splitChars_append '-' _ _ (by decide)
  simp only [construct_features] at hf
  rcases hfa : featureArrays tok shuffle
      (officialExample "inference" article_id text) L pn with _ | arrs
  · rw [hfa] at hf
    exact absurd hf (by simp)
  rw [hfa, Option.some_bind, if_pos trivial, hsplit] at hf
  rcases hsp : splitChars '-' article_id.data with _ | ⟨y, ys⟩
  · exact absurd hsp (splitChars_ne_nil '-' _)
  rw [hsp] at hf
  simp only [List.get?_cons_succ, List.get?_cons_zero, Option.some_bind] at hf
  cases hf
  refine ⟨rfl, ?_, ?_⟩
  · rfl
  · intro hnm
    have hone := splitChars_not_mem '-' article_id.data hnm
    rw [hsp] at hone
    injection hone with hy hys
    rw [hy]

/-- The record built in the closed C9 instance below. -/
def c9Features : InputFeatures :=
  ⟨[7, 7, 7, 0, 0, 0, 0, 0], [1, 1, 1, 0, 0, 0, 0, 0],
   [0, 0, 0, 0, 0, 0, 0, 0], none, some "42"⟩

theorem C9_record_id_witness :
    construct_features tok0 id (officialExample "inference" "42" "text") 8
      (fun _ => none) true none = some c9Features ∧
    (c9Features.label_id = none ∧
     c9Features.article_id =
       some (String.mk ((splitChars '-' "42".data).headI)) ∧
     ('-' ∉ "42".data → c9Features.article_id = some "42")) :=
  ⟨by decide,
   C9_record_id tok0 id "42" "text" 8 (fun _ => none) none c9Features
     (by decide)⟩

/-! ## Parallel converter (`convert_examples_to_features`, lines 448-463) -/

/-- The `label_map` dict built at the top of `convert_examples_to_features`:
    `for i, label in enumerate(label_list): label_map[label] = i` (a later
    duplicate overwrites an earlier one); looking up an absent key raises
    `KeyError`, i.e. `none`. -/
def mkLabelMap (label_list : List String) (s : String) : Option Nat :=
  (List.range label_list.length).foldl
    (fun acc i => if label_list[i]? = some s then some i else acc) none

/-- The worker pool (`multiprocessing.Pool.imap` over
    `zip(count(), examples, ...)`, lines 455-460): each unit of work carries
    its input index as a tag; workers finish in an arbitrary order — the
    (adversarial) parameter `order` — and a finished unit's result is fully
    determined by its tag, since the per-unit configuration is read-only. -/
def poolResults (g : InputExample → Option InputFeatures)
    (examples : List InputExample) (order : List Nat) :
    List (Nat × Option InputFeatures) :=
  order.filterMap (fun i => (examples[i]?).map (fun e => (i, g e)))

/-- Collection step: `imap` hands results back in input-index order: output slot `j` holds the
    result tagged `j`; a missing slot or a worker exception aborts the
    conversion (`none`), matching the fail-fast contract. -/
def collectInOrder (done : List (Nat × Option InputFeatures)) (j k : Nat) :
    Option (List InputFeatures) :=
  match k with
  | 0 => some []
  | k + 1 =>
    match done.find? (fun q => q.1 = j) with
    | some (_, some f) => (collectInOrder done (j + 1) k).map (f :: ·)
    | _ => none

/-- Model of `convert_examples_to_features(examples, label_list, max_seq_length,
    tokenizer, predict, permute_ngrams)` (lines 448-463): build the label
    map, fan the index-tagged examples out to the pool (completion order
    `order`), collect the results back in input order. -/
def convert_examples_to_features (examples : List InputExample)
    (label_list : List String) (max_seq_length : Nat) (tok : Tokenizer)
    (shuffle : List (List String) → List (List String)) (predict : Bool)
    (permute_ngrams : Option Int) (order : List Nat) :
    Option (List InputFeatures) :=
  collectInOrder
    (poolResults
      (fun e => construct_features tok shuffle e max_seq_length
        (mkLabelMap label_list) predict permute_ngrams)
      examples order)
    0 examples.length

/-- The sequential reference: map the assembler over the examples in input
    order, aborting at the first failure. -/
def seqMapOpt (g : α → Option β) : List α → Option (List β)
  | [] => some []
  | x :: xs =>
    match g x with
    | none => none
    | some y => (seqMapOpt g xs).map (y :: ·)

/-- In the tagged result list, the tag alone determines the value. -/
theorem poolResults_mem {g : InputExample → Option InputFeatures}
    {examples : List InputExample} {order : List Nat} {i : Nat}
    {v : Option InputFeatures}
    (h : (i, v) ∈ poolResults g examples order) :
    ∃ e, examples[i]? = some e ∧ v = g e := by
  simp only [poolResults, List.mem_filterMap] at h
  obtain ⟨j, hj, hmap⟩ := h
  rcases he : examples[j]? with _ | e
  · rw [he] at hmap
    simp at hmap
  · rw [he] at hmap
    simp only [Option.map_some', Option.some.injEq, Prod.mk.injEq] at hmap
    obtain ⟨hij, hv⟩ := hmap
    subst hij
    exact ⟨e, he, hv.symm⟩

/-- Collecting slot `j` finds exactly the result computed for input `j`. -/
theorem poolResults_find {g : InputExample → Option InputFeatures}
    {examples : List InputExample} {order : List Nat} {j : Nat}
    (hj : j ∈ order) {e : InputExample} (he : examples[j]? = some e) :
    (poolResults g examples order).find? (fun q => q.1 = j) =
      some (j, g e) := by
  have hmem : (j, g e) ∈ poolResults g examples order := by
    simp only [poolResults, List.mem_filterMap]
    exact ⟨j, hj, by rw [he]; rfl⟩
  have hsome : ((poolResults g examples order).find?
      (fun q => q.1 = j)).isSome := by
    rw [List.find?_isSome]
    exact ⟨(j, g e), hmem, by simp⟩
  obtain ⟨q, hq⟩ := Option.isSome_iff_exists.mp hsome
  have hqj : q.1 = j := by
    have := List.find?_some hq
    simpa using this
  obtain ⟨e2, he2, hv2⟩ := poolResults_mem (List.mem_of_find?_eq_some hq)
  rw [hqj] at he2
  rw [he] at he2
  cases he2
  rw [hq]
  obtain ⟨q1, q2⟩ := q
  simp only at hqj hv2
  rw [hqj, hv2]

/-- Collecting slots `j, j+1, ...` from an index-complete pool equals the
    sequential map over the remaining inputs. -/
theorem collectInOrder_eq (g : InputExample → Option InputFeatures)
    (examples : List InputExample) (order : List Nat)
    (horder : ∀ j, j < examples.length → j ∈ order) :
    ∀ (k j : Nat), j + k = examples.length →
      collectInOrder (poolResults g examples order) j k =
        seqMapOpt g (examples.drop j) := by
  intro k
  induction k with
  | zero =>
    intro j hj
    rw [List.drop_eq_nil_of_le (by omega)]
    rfl
  | succ k ih =>
    intro j hj
    have hjlt : j < examples.length := by omega
    obtain ⟨e, he⟩ : ∃ e, examples[j]? = some e := by
      cases hq : examples[j]? with
      | none =>
        have := List.getElem?_eq_none_iff.mp hq
        omega
      | some e => exact ⟨e, rfl⟩
    have hdrop : examples.drop j = e :: examples.drop (j + 1) := by
      rw [List.drop_eq_getElem_cons hjlt]
      obtain ⟨hb, hv⟩ := List.getElem?_eq_some.mp he
      rw [hv]
    show (match (poolResults g examples order).find? (fun q => q.1 = j) with
      | some (_, some f) =>
        (collectInOrder (poolResults g examples order) (j + 1) k).map (f :: ·)
      | _ => none) = seqMapOpt g (examples.drop j)
    rw [poolResults_find (horder j hjlt) he, hdrop]
    cases hge : g e with
    | none => simp [seqMapOpt, hge]
    | some f =>
      rw [ih (j + 1) (by omega)]
      simp [seqMapOpt, hge]

/-- A successful sequential map is positionally aligned with its input. -/
theorem seqMapOpt_getElem {g : α → Option β} :
    ∀ (xs : List α) (ys : List β), seqMapOpt g xs = some ys →
      ∀ i : Nat, ys[i]? = (xs[i]?).bind g := by
  intro xs
  induction xs with
  | nil =>
    intro ys h i
    simp only [seqMapOpt, Option.some.injEq] at h
    subst h
    simp
  | cons x xt ih =>
    intro ys h i
    simp only [seqMapOpt] at h
    cases hg : g x with
    | none =>
      rw [hg] at h
      exact absurd h (by simp)
    | some y =>
      rw [hg] at h
      cases hs : seqMapOpt g xt with
      | none =>
        rw [hs] at h
        exact absurd h (by simp)
      | some yt =>
        rw [hs] at h
        simp only [Option.map_some', Option.some.injEq] at h
        subst h
        cases i with
        | zero => simp [hg]
        | succ i => simpa using ih yt hs i

/-- C4: for any completion order that is a permutation of the input indices
    (hence for any worker count and any per-unit timing), the parallel
    conversion equals the sequential map of the feature assembler over the
    input; two runs with different completion orders produce identical
    output; and the i-th output is the assembler's result for the i-th
    input. -/
theorem C4_parallel_order (examples : List InputExample)
    (label_list : List String) (L : Nat) (tok : Tokenizer)
    (shuffle : List (List String) → List (List String)) (predict : Bool)
    (pn : Option Int) (order order2 : List Nat) (fs : List InputFeatures)
    (i : Nat)
    (h1 : order.Perm (List.range examples.length))
    (h2 : order2.Perm (List.range examples.length))
    (hfs : convert_examples_to_features examples label_list L tok shuffle
      predict pn order = some fs) :
    convert_examples_to_features examples label_list L tok shuffle predict pn
        order =
      seqMapOpt (fun e => construct_features tok shuffle e L
        (mkLabelMap label_list) predict pn) examples ∧
    convert_examples_to_features examples label_list L tok shuffle predict pn
        order =
      convert_examples_to_features examples label_list L tok shuffle predict
        pn order2 ∧
    fs[i]? = (examples[i]?).bind (fun e => construct_features tok shuffle e L
      (mkLabelMap label_list) predict pn) := by
  have key : ∀ o : List Nat, o.Perm (List.range examples.length) →
      convert_examples_to_features examples label_list L tok shuffle predict
        pn o =
      seqMapOpt (fun e => construct_features tok shuffle e L
        (mkLabelMap label_list) predict pn) examples := by
    intro o ho
    have horder : ∀ j, j < examples.length → j ∈ o := fun j hj =>
      ho.mem_iff.mpr (List.mem_range.mpr hj)
    have hc := collectInOrder_eq
      (fun e => construct_features tok shuffle e L (mkLabelMap label_list)
        predict pn)
      examples o horder examples.length 0 (by omega)
    simpa [convert_examples_to_features] using hc
  refine ⟨key order h1, (key order h1).trans (key order2 h2).symm, ?_⟩
  rw [key order h1] at hfs
  exact seqMapOpt_getElem examples fs hfs i

def c4ExampleA : InputExample := ⟨"train-0", "hello", none, some "true"⟩

def c4ExampleB : InputExample := ⟨"train-1", "world", none, some "false"⟩

/-- The output of the closed C4 instance below. -/
def c4Features : List InputFeatures :=
  [⟨[7, 7, 7, 0], [1, 1, 1, 0], [0, 0, 0, 0], some 1, none⟩,
   ⟨[7, 7, 7, 0], [1, 1, 1, 0], [0, 0, 0, 0], some 0, none⟩]

theorem C4_parallel_order_witness :
    (([1, 0] : List Nat).Perm (List.range [c4ExampleA, c4ExampleB].length) ∧
     ([0, 1] : List Nat).Perm (List.range [c4ExampleA, c4ExampleB].length) ∧
     convert_examples_to_features [c4ExampleA, c4ExampleB] ["false", "true"] 4
       tok0 id false none [1, 0] = some c4Features) ∧
    (convert_examples_to_features [c4ExampleA, c4ExampleB] ["false", "true"] 4
        tok0 id false none [1, 0] =
      seqMapOpt (fun e => construct_features tok0 id e 4
        (mkLabelMap ["false", "true"]) false none) [c4ExampleA, c4ExampleB] ∧
     convert_examples_to_features [c4ExampleA, c4ExampleB] ["false", "true"] 4
        tok0 id false none [1, 0] =
      convert_examples_to_features [c4ExampleA, c4ExampleB] ["false", "true"]
        4 tok0 id false none [0, 1] ∧
     c4Features[0]? = ([c4ExampleA, c4ExampleB][0]?).bind
       (fun e => construct_features tok0 id e 4
         (mkLabelMap ["false", "true"]) false none)) :=
  ⟨⟨by decide, by decide, by decide⟩,
   C4_parallel_order [c4ExampleA, c4ExampleB] ["false", "true"] 4 tok0 id
     false none [1, 0] [0, 1] c4Features 0 (by decide) (by decide)
     (by decide)⟩

end RunClassifier
